import Mathlib

/-!
# Rasterize: the `colour` value type of `colour.h`

A shallow embedding of `src/Rasterize/colour.h`.

* `F32` is an IEEE-754 binary32 value given by its three bit fields, so that a
  `float` of the program is exactly one `F32` (all `2^32` bit patterns, NaNs and
  infinities included).  Multiplication and addition are the correctly rounded
  operations of the SSE unit the header targets, in its default mode: round to
  nearest, ties to even, subnormals kept.
* `M128` is the four-lane `__m128` register with the intrinsics the header uses.
* `colour` is the class: three channels `r`, `g`, `b` that the anonymous union also
  exposes as the array `rgb[3]`.
* Memory reached through a `float*` is a list of words starting at the pointer; the
  list ends where the accessible memory ends, and a load or store that runs past
  the end fails (`none`).
* `Vars` and `interpolate` are callers: two variables with the statements that mutate
  one of them, and the expression `a * w0 + b * w1 + c * w2`.
-/

set_option maxRecDepth 100000

namespace Rasterize

/-! ## binary32 -/

/-- An IEEE-754 binary32 value: sign bit, 8-bit biased exponent, 23-bit fraction. -/
structure F32 where
  sign : Bool
  expo : Fin 256
  frac : Fin 8388608
deriving DecidableEq

namespace F32

/-- The value with the given 32-bit pattern (bit 31 sign, bits 30..23 exponent, bits 22..0 fraction). -/
def ofBits (n : Nat) : F32 :=
  ⟨decide (n / 2147483648 % 2 = 1), Fin.ofNat (n / 8388608), Fin.ofNat n⟩

/-- Zero of the given sign. -/
def zero (neg : Bool) : F32 := ⟨neg, 0, 0⟩

/-- Infinity of the given sign. -/
def inf (neg : Bool) : F32 := ⟨neg, 255, 0⟩

/-- The default quiet NaN an SSE operation produces for an invalid operation. -/
def defaultNaN : F32 := ⟨true, 255, 4194304⟩

/-- The constant `1.0f`. -/
def one : F32 := ⟨false, 127, 0⟩

/-- The constant `255.0f`, the value the `int` literal `255` converts to in `r * 255`. -/
def f255 : F32 := ⟨false, 134, 8323072⟩

def isNaN (x : F32) : Bool := x.expo.val = 255 && x.frac.val != 0

def isInf (x : F32) : Bool := x.expo.val = 255 && x.frac.val = 0

/-- A NaN operand as an SSE operation returns it: with the quiet bit (bit 22) set. -/
def quiet (x : F32) : F32 := ⟨x.sign, x.expo, Fin.ofNat (x.frac.val ||| 4194304)⟩

/-- The integer significand: the fraction, with the hidden bit for a normal number. -/
def sig (x : F32) : Nat := if x.expo.val = 0 then x.frac.val else 8388608 + x.frac.val

/-- The exponent of the last place, counted from `2^-149`: `|x| = sig x * 2^(ex x) * 2^-149`. -/
def ex (x : F32) : Nat := x.expo.val - 1

/-- The magnitude in units of `2^-149`.  An infinity gets `2^277`, above every finite magnitude. -/
def mag (x : F32) : Nat := x.sig * 2 ^ x.ex

/-- The signed value in units of `2^-149` (meaningful for every non-NaN value). -/
def toInt (x : F32) : Int := if x.sign then -(x.mag : Int) else (x.mag : Int)

/-- The rational number a finite value denotes. -/
def toRat (x : F32) : ℚ := (x.toInt : ℚ) / 2 ^ 149

/-- The comparison `a <= b` (false when either side is a NaN; `-0 <= +0` and `+0 <= -0`). -/
def le (a b : F32) : Bool := !a.isNaN && !b.isNaN && decide (a.toInt ≤ b.toInt)

/-- Helper of `bitLen`: halve until zero, `fuel` bounds the number of steps. -/
def bitLenAux : Nat → Nat → Nat
  | 0, _ => 0
  | fuel + 1, n => if n = 0 then 0 else bitLenAux fuel (n / 2) + 1

/-- The number of binary digits of `n` (`0` for `0`). -/
def bitLen (n : Nat) : Nat := bitLenAux n n

/-- The integer nearest to `m / 2^d`, ties to the even one. -/
def rne (m d : Nat) : Nat :=
  let q := m / 2 ^ d
  let r := m % 2 ^ d
  if 2 ^ d < 2 * r ∨ (2 * r = 2 ^ d ∧ q % 2 = 1) then q + 1 else q

/-- The value with significand `s <= 2^24` and last-place exponent `x` (`s < 2^23` only at `x = 0`);
    a significand of `2^24` carries into the next exponent, a too large exponent gives infinity. -/
def encode (neg : Bool) (s x : Nat) : F32 :=
  if s < 8388608 then ⟨neg, 0, Fin.ofNat s⟩
  else if s < 16777216 then
    (if x + 1 < 255 then ⟨neg, Fin.ofNat (x + 1), Fin.ofNat (s - 8388608)⟩ else inf neg)
  else
    (if x + 2 < 255 then ⟨neg, Fin.ofNat (x + 2), 0⟩ else inf neg)

/-- Round the exact magnitude `m * 2^e` (in units of `2^-149`) to the nearest binary32 value,
    ties to even: the last place of the result is `2^x`, the smallest that leaves at most 24
    significant bits, and never below the subnormal spacing `2^0`. -/
def roundNE (neg : Bool) (m : Nat) (e : Int) : F32 :=
  let x : Nat := ((bitLen m : Int) + e - 24).toNat
  let s : Nat := if (x : Int) ≤ e then m * 2 ^ (e - x).toNat else rne m ((x : Int) - e).toNat
  encode neg s x

/-- The product `a * b` of `mulss` / one lane of `mulps`. -/
def fmul (a b : F32) : F32 :=
  if a.isNaN then a.quiet
  else if b.isNaN then b.quiet
  else if (a.isInf && b.mag = 0) || (a.mag = 0 && b.isInf) then defaultNaN
  else if a.isInf || b.isInf then inf (xor a.sign b.sign)
  else roundNE (xor a.sign b.sign) (a.sig * b.sig) ((a.ex : Int) + b.ex - 149)

/-- The sum `a + b` of `addss` / one lane of `addps`. -/
def fadd (a b : F32) : F32 :=
  if a.isNaN then a.quiet
  else if b.isNaN then b.quiet
  else if a.isInf then (if b.isInf && (a.sign != b.sign) then defaultNaN else a)
  else if b.isInf then b
  else
    let v : Int := a.toInt + b.toInt
    if v = 0 then zero (a.sign && b.sign) else roundNE (decide (v < 0)) v.natAbs 0

/-- The function `std::floor` on `float`: the largest integral value not above `x`;
    NaN and the infinities are returned as they are, and so is a value whose last
    place is `2^0` or higher. -/
def floor (x : F32) : F32 :=
  if x.expo.val = 255 then x
  else if 149 ≤ x.ex then x
  else
    let i : Int := Int.fdiv x.toInt (2 ^ 149)
    if i = 0 then zero x.sign else roundNE (decide (i < 0)) i.natAbs 149

/-- The conversion `static_cast<unsigned char>(x)`: truncation toward zero; undefined
    (`none`) when `x` is a NaN or an infinity or the truncated value is not in `0..255`. -/
def toUChar (x : F32) : Option Nat :=
  if x.expo.val = 255 then none
  else
    let t : Int := Int.tdiv x.toInt (2 ^ 149)
    if 0 ≤ t ∧ t ≤ 255 then some t.toNat else none

/-- A decimal literal `num / den` (negated when `neg`) as the nearest binary32 value, ties to
    even.  The quotient is taken to two places below `2^-149` and a sticky bit records a
    remainder, which leaves the nearest value unchanged. -/
def lit (neg : Bool) (num den : Nat) : F32 :=
  let q := num * 2 ^ 151 / den
  let sticky := if num * 2 ^ 151 % den = 0 then 0 else 1
  roundNE neg (2 * q + sticky) (-3)

/-- Modelled from the spec: `min`, which `clampColour` calls unqualified, is declared outside
    this header.  The spec gives it as "the minimum of itself and 1.0", with "result = v if
    v ≤ 1.0, else 1.0". -/
def min (a b : F32) : F32 := if le a b then a else b

/-- The channel value lies in `[0, 1]`: both `0.0f <= v` and `v <= 1.0f` hold. -/
def inUnit (v : F32) : Prop := le (zero false) v = true ∧ le v one = true

instance (v : F32) : Decidable (inUnit v) := by
  unfold inUnit
  exact inferInstance

end F32

/-! ## the `__m128` register and the intrinsics used -/

/-- A `__m128` register: four `float` lanes, `e0` the lowest. -/
structure M128 where
  e0 : F32
  e1 : F32
  e2 : F32
  e3 : F32
deriving DecidableEq

/-- The intrinsic `_mm_set_ps(e3, e2, e1, e0)`: the last argument goes to the lowest lane. -/
def mm_set_ps (e3 e2 e1 e0 : F32) : M128 := ⟨e0, e1, e2, e3⟩

/-- The intrinsic `_mm_set1_ps(a)`: all four lanes are `a`. -/
def mm_set1_ps (a : F32) : M128 := ⟨a, a, a, a⟩

/-- The intrinsic `_mm_mul_ps(a, b)`: lane-wise product. -/
def mm_mul_ps (a b : M128) : M128 :=
  ⟨F32.fmul a.e0 b.e0, F32.fmul a.e1 b.e1, F32.fmul a.e2 b.e2, F32.fmul a.e3 b.e3⟩

/-- The intrinsic `_mm_add_ps(a, b)`: lane-wise sum. -/
def mm_add_ps (a b : M128) : M128 :=
  ⟨F32.fadd a.e0 b.e0, F32.fadd a.e1 b.e1, F32.fadd a.e2 b.e2, F32.fadd a.e3 b.e3⟩

/-- The intrinsic `_mm_loadu_ps(p)`: loads the four words `p[0..3]`; `mem` is the memory
    accessible from `p` on, and the load fails when it holds fewer than four words. -/
def mm_loadu_ps (mem : List F32) : Option M128 :=
  match mem with
  | w0 :: w1 :: w2 :: w3 :: _ => some ⟨w0, w1, w2, w3⟩
  | _ => none

/-- The intrinsic `_mm_storeu_ps(p, a)`: stores the four lanes to `p[0..3]`; `mem` is the
    memory accessible from `p` on, returned as it is after the store, and the store fails
    when it holds fewer than four words. -/
def mm_storeu_ps (mem : List F32) (a : M128) : Option (List F32) :=
  match mem with
  | _ :: _ :: _ :: _ :: rest => some (a.e0 :: a.e1 :: a.e2 :: a.e3 :: rest)
  | _ => none

/-! ## the class `colour` -/

/-- The channel selector `enum Colour { RED = 0, GREEN = 1, BLUE = 2 }`. -/
inductive Colour where
  | RED
  | GREEN
  | BLUE
deriving DecidableEq

/-- The integer value of a selector. -/
def Colour.toNat : Colour → Nat
  | .RED => 0
  | .GREEN => 1
  | .BLUE => 2

/-- The class `colour`: the members `r`, `g`, `b` of the anonymous union. -/
structure colour where
  r : F32
  g : F32
  b : F32
deriving DecidableEq

namespace colour

/-- The other member of the union, `float rgb[3]`: the same three words, `r` first. -/
def rgb (c : colour) : List F32 := [c.r, c.g, c.b]

/-- The object whose array `rgb` holds the first three words of `mem`. -/
def ofRgb (mem : List F32) : Option colour :=
  match mem with
  | w0 :: w1 :: w2 :: _ => some ⟨w0, w1, w2⟩
  | _ => none

/-- The constructor `colour(float _r = 0, float _g = 0, float _b = 0)` with all three arguments given. -/
def new (_r _g _b : F32) : colour := ⟨_r, _g, _b⟩

/-- The constructor called without arguments, as in the declaration `colour c;`. -/
def new0 : colour := new (F32.zero false) (F32.zero false) (F32.zero false)

/-- The constructor called with one argument: `_g` and `_b` take their default `0`. -/
def new1 (_r : F32) : colour := new _r (F32.zero false) (F32.zero false)

/-- The constructor called with two arguments: `_b` takes its default `0`. -/
def new2 (_r _g : F32) : colour := new _r _g (F32.zero false)

/-- The member `set(_r, _g, _b)`. -/
def set (c : colour) (_r _g _b : F32) : colour :=
  let c := { c with r := _r }
  let c := { c with g := _g }
  { c with b := _b }

/-- Reading through `operator[]`: the element `rgb[c]` of the array member. -/
def index (self : colour) (c : Colour) : F32 :=
  match c with
  | .RED => self.r
  | .GREEN => self.g
  | .BLUE => self.b

/-- Writing `v` through the reference `operator[]` returns. -/
def indexSet (self : colour) (c : Colour) (v : F32) : colour :=
  match c with
  | .RED => { self with r := v }
  | .GREEN => { self with g := v }
  | .BLUE => { self with b := v }

/-- The member `operator=`: the object after `*this = c`. -/
def assign (self : colour) (c : colour) : colour :=
  let self := { self with r := c.r }
  let self := { self with g := c.g }
  { self with b := c.b }

/-- The member `clampColour`. -/
def clampColour (self : colour) : colour :=
  let self := { self with r := F32.min self.r F32.one }
  let self := { self with g := F32.min self.g F32.one }
  { self with b := F32.min self.b F32.one }

/-- The member `toRGB`: the three output bytes `(cr, cg, cb)`, `none` when a conversion to
    `unsigned char` is undefined. -/
def toRGB (self : colour) : Option (Nat × Nat × Nat) := do
  let cr ← F32.toUChar (F32.floor (F32.fmul self.r F32.f255))
  let cg ← F32.toUChar (F32.floor (F32.fmul self.g F32.f255))
  let cb ← F32.toUChar (F32.floor (F32.fmul self.b F32.f255))
  pure (cr, cg, cb)

/-- The body of `operator*(const float scalar)` with the fourth lane of the register
    loaded with `pad`. -/
def opMulScalarPad (pad : F32) (self : colour) (scalar : F32) : Option colour := do
  let c := new0
  let vec := mm_set_ps pad self.b self.g self.r
  let vec := mm_mul_ps vec (mm_set1_ps scalar)
  let tmp ← mm_storeu_ps (List.replicate 4 (F32.zero false)) vec
  let c := { c with r := ← tmp[0]? }
  let c := { c with g := ← tmp[1]? }
  let c := { c with b := ← tmp[2]? }
  pure c

/-- The member `operator*(const float scalar)`: the fourth lane is loaded with `0`.
    The local `float tmp[4]` is written in full before it is read. -/
def opMulScalar (self : colour) (scalar : F32) : Option colour :=
  opMulScalarPad (F32.zero false) self scalar

/-- The member `operator*(const colour& col)`, each product with its factors in the order of
    the source text (`opMulAs` below covers the other order, which shows only when both
    factors are NaNs). -/
def opMul (self : colour) (col : colour) : colour :=
  let c := new0
  let c := { c with r := F32.fmul self.r col.r }
  let c := { c with g := F32.fmul self.g col.g }
  { c with b := F32.fmul self.b col.b }

/-- The member `operator*(const colour& col)` as a compiler may emit it: C++ does not fix
    which factor of `r * col.r` the multiply instruction takes first, and `swapped ch` tells
    that the product of channel `ch` is computed with `col` first.  The two orders differ
    only in which NaN is returned when both factors are NaNs; `opMul` is the order of the
    source text. -/
def opMulAs (swapped : Colour → Bool) (self : colour) (col : colour) : colour :=
  let c := new0
  let c := { c with r := if swapped .RED then F32.fmul col.r self.r else F32.fmul self.r col.r }
  let c := { c with g := if swapped .GREEN then F32.fmul col.g self.g else F32.fmul self.g col.g }
  { c with b := if swapped .BLUE then F32.fmul col.b self.b else F32.fmul self.b col.b }

/-- The member `operator+(const colour& _c)`.  `selfPast`, `cPast` and `resPast` are the
    accessible words that lie behind `*this`, behind `_c` and behind the local `c`; with
    nothing accessible behind a three-element array they are `[]`.  The result is the
    returned colour and the words behind `c` as the store leaves them. -/
def opAdd (self : colour) (selfPast : List F32) (_c : colour) (cPast : List F32)
    (resPast : List F32) : Option (colour × List F32) := do
  let c := new0
  let a ← mm_loadu_ps (self.rgb ++ selfPast)
  let b ← mm_loadu_ps (_c.rgb ++ cPast)
  let result := mm_add_ps a b
  let mem ← mm_storeu_ps (c.rgb ++ resPast) result
  let c ← ofRgb mem
  pure (c, mem.drop 3)

/-- All three channels lie in `[0, 1]`. -/
def allUnit (c : colour) : Prop := c.r.inUnit ∧ c.g.inUnit ∧ c.b.inUnit

instance (c : colour) : Decidable (allUnit c) := by
  unfold allUnit
  exact inferInstance

end colour

/-! ## callers -/

/-- Two variables `a` and `b` of class `colour` in a caller. -/
structure Vars where
  a : colour
  b : colour
deriving DecidableEq

namespace Vars

/-- The statement `a = b;` (`operator=` receives a copy of `b`). -/
def assignAB (s : Vars) : Vars := { s with a := s.a.assign s.b }

/-- The statement `a.set(_r, _g, _b);`. -/
def setA (s : Vars) (_r _g _b : F32) : Vars := { s with a := s.a.set _r _g _b }

/-- The statement `a[c] = v;`. -/
def indexSetA (s : Vars) (c : Colour) (v : F32) : Vars := { s with a := s.a.indexSet c v }

/-- The statement `a.clampColour();`. -/
def clampA (s : Vars) : Vars := { s with a := s.a.clampColour }

end Vars

/-- Scalar multiply as the spec gives it: "each channel multiplied independently by the scalar". -/
def specScale (c : colour) (s : F32) : colour := ⟨F32.fmul c.r s, F32.fmul c.g s, F32.fmul c.b s⟩

/-- Colour add as the spec gives it: "component-wise sum". -/
def specAdd (a b : colour) : colour := ⟨F32.fadd a.r b.r, F32.fadd a.g b.g, F32.fadd a.b b.b⟩

/-- Colour multiply as the spec gives it: "component-wise (Hadamard) product of the two triples". -/
def specMul (a b : colour) : colour := ⟨F32.fmul a.r b.r, F32.fmul a.g b.g, F32.fmul a.b b.b⟩

/-! ## helper lemmas: binary32 -/

namespace F32

theorem one_toInt : one.toInt = 2 ^ 149 := by decide

/-- The comparison `v <= 1.0f` holds exactly for a non-NaN `v` whose value is at most `1`. -/
theorem le_one_iff (v : F32) :
    le v one = true ↔ (v.isNaN = false ∧ v.toRat ≤ 1) := by
  have h1 : one.isNaN = false := by decide
  have h2 : v.toRat ≤ 1 ↔ v.toInt ≤ 2 ^ 149 := by
    unfold toRat
    rw [div_le_one (by positivity)]
    exact_mod_cast Iff.rfl
  rw [h2]
  simp [le, h1, one_toInt]

/-- The comparison `0.0f <= v` holds exactly for a non-NaN `v` whose value is at least `0`. -/
theorem zero_le_iff (v : F32) :
    le (zero false) v = true ↔ (v.isNaN = false ∧ 0 ≤ v.toRat) := by
  have h1 : (zero false).isNaN = false := by decide
  have h0 : (zero false).toInt = 0 := by decide
  have h2 : 0 ≤ v.toRat ↔ 0 ≤ v.toInt := by
    unfold toRat
    rw [le_div_iff₀ (by positivity)]
    simp
  rw [h2]
  simp [le, h1, h0]

/-- A channel lies in `[0, 1]` exactly when it is not a NaN and its value is in `[0, 1]`. -/
theorem inUnit_iff (v : F32) : v.inUnit ↔ (v.isNaN = false ∧ 0 ≤ v.toRat ∧ v.toRat ≤ 1) := by
  unfold inUnit
  rw [zero_le_iff, le_one_iff]
  tauto

/-- Known bit patterns: the literals `0.1`, `0.2`, `0.5`, `0.999999`, `1.0`, `255` and
    `-0.5`, the product `0.1f * 0.1f` and the sum `1.0f + (-0.3f)`. -/
theorem known_bit_patterns :
    lit false 1 10 = ofBits 0x3DCCCCCD ∧ lit false 1 5 = ofBits 0x3E4CCCCD
    ∧ lit false 1 2 = ofBits 0x3F000000 ∧ lit false 999999 1000000 = ofBits 0x3F7FFFEF
    ∧ lit false 1 1 = one ∧ one = ofBits 0x3F800000
    ∧ lit false 255 1 = f255 ∧ f255 = ofBits 0x437F0000
    ∧ lit true 1 2 = ofBits 0xBF000000
    ∧ fmul (lit false 1 10) (lit false 1 10) = ofBits 0x3C23D70B
    ∧ fadd (lit false 1 1) (lit true 3 10) = ofBits 0x3F333333 := by
  decide

theorem half_toRat : (lit false 1 2).toRat = 1 / 2 := by
  have h : (lit false 1 2).toInt = 2 ^ 148 := by decide
  rw [toRat, h]
  norm_num

theorem bitLenAux_zero (fuel : Nat) : bitLenAux fuel 0 = 0 := by
  cases fuel <;> simp [bitLenAux]

theorem bitLenAux_spec : ∀ fuel n : Nat, n ≤ fuel →
    n < 2 ^ bitLenAux fuel n ∧ (n ≠ 0 → 2 ^ (bitLenAux fuel n - 1) ≤ n) := by
  intro fuel
  induction fuel with
  | zero =>
    intro n hn
    have h0 : n = 0 := by omega
    subst h0
    simp [bitLenAux]
  | succ fuel ih =>
    intro n hn
    by_cases h0 : n = 0
    · subst h0
      simp [bitLenAux]
    · have hstep : bitLenAux (fuel + 1) n = bitLenAux fuel (n / 2) + 1 := by
        simp [bitLenAux, h0]
      have hle : n / 2 ≤ fuel := by omega
      obtain ⟨ih1, ih2⟩ := ih (n / 2) hle
      rw [hstep]
      constructor
      · rw [pow_succ]
        omega
      · intro _
        rw [Nat.add_sub_cancel]
        by_cases h2 : n / 2 = 0
        · rw [h2, bitLenAux_zero]
          simp
          omega
        · have h3 := ih2 h2
          have hb : bitLenAux fuel (n / 2) ≠ 0 := by
            intro hb
            rw [hb] at ih1
            simp at ih1
            exact h2 ih1
          obtain ⟨b, hb'⟩ := Nat.exists_eq_succ_of_ne_zero hb
          rw [hb'] at h3 ⊢
          rw [Nat.succ_sub_one] at h3
          rw [pow_succ]
          omega

theorem lt_pow_bitLen (n : Nat) : n < 2 ^ bitLen n := (bitLenAux_spec n n (Nat.le_refl n)).1

theorem pow_bitLen_le (n : Nat) (h : n ≠ 0) : 2 ^ (bitLen n - 1) ≤ n :=
  (bitLenAux_spec n n (Nat.le_refl n)).2 h

/-- A number with `2^L <= n < 2^(L+1)` has `L + 1` binary digits. -/
theorem bitLen_eq (n L : Nat) (h1 : 2 ^ L ≤ n) (h2 : n < 2 ^ (L + 1)) : bitLen n = L + 1 := by
  have hn : n ≠ 0 := by
    have : 0 < 2 ^ L := Nat.two_pow_pos _
    omega
  have a1 := lt_pow_bitLen n
  have a2 := pow_bitLen_le n hn
  have b1 : L < bitLen n := (Nat.pow_lt_pow_iff_right (by norm_num : 1 < 2)).1 (lt_of_le_of_lt h1 a1)
  have b2 : bitLen n - 1 < L + 1 :=
    (Nat.pow_lt_pow_iff_right (by norm_num : 1 < 2)).1 (lt_of_le_of_lt a2 h2)
  omega

theorem bitLen_mul_pow (a j : Nat) (h : a ≠ 0) : bitLen (a * 2 ^ j) = bitLen a + j := by
  have a1 := lt_pow_bitLen a
  have a2 := pow_bitLen_le a h
  have hb : bitLen a ≠ 0 := by
    intro hb
    rw [hb] at a1
    simp at a1
    exact h a1
  obtain ⟨b, hb'⟩ := Nat.exists_eq_succ_of_ne_zero hb
  rw [hb'] at a1 a2 ⊢
  rw [Nat.succ_sub_one] at a2
  have : bitLen (a * 2 ^ j) = (b + j) + 1 := by
    apply bitLen_eq
    · rw [pow_add]
      exact Nat.mul_le_mul_right _ a2
    · have : 2 ^ (b + j + 1) = 2 ^ (b + 1) * 2 ^ j := by ring
      rw [this]
      exact Nat.mul_lt_mul_of_pos_right a1 (Nat.two_pow_pos _)
  omega

theorem rne_mul_pow (a j D : Nat) : rne (a * 2 ^ j) (j + D) = rne a D := by
  have hj : 0 < 2 ^ j := Nat.two_pow_pos _
  have h1 : a * 2 ^ j / 2 ^ (j + D) = a / 2 ^ D := by
    rw [pow_add, Nat.mul_comm (2 ^ j), Nat.mul_div_mul_right _ _ hj]
  have h2 : a * 2 ^ j % 2 ^ (j + D) = a % 2 ^ D * 2 ^ j := by
    rw [pow_add, Nat.mul_comm (2 ^ j), Nat.mul_mod_mul_right]
  have h3 : 2 ^ (j + D) = 2 ^ D * 2 ^ j := by ring
  unfold rne
  simp only [h1, h2]
  have e1 : 2 * (a % 2 ^ D * 2 ^ j) = (2 * (a % 2 ^ D)) * 2 ^ j := by ring
  rw [e1, h3]
  have c1 : (2 ^ D * 2 ^ j < 2 * (a % 2 ^ D) * 2 ^ j) ↔ (2 ^ D < 2 * (a % 2 ^ D)) :=
    Nat.mul_lt_mul_right hj
  have c2 : (2 * (a % 2 ^ D) * 2 ^ j = 2 ^ D * 2 ^ j) ↔ (2 * (a % 2 ^ D) = 2 ^ D) :=
    Nat.mul_left_inj (Nat.ne_of_gt hj)
  simp only [c1, c2]

theorem rne_255_shift7 (M : Nat) (h1 : 1073741824 ≤ 255 * M) (h2 : 255 * M < 2147483648) :
    rne (255 * M) 7 / 131072 = 255 * M / 16777216 := by
  obtain ⟨z, hz⟩ : ∃ z : Int, (M : Int) = z + 65793 * ((255 * M / 16777216 : Nat) + 1) :=
    ⟨(M : Int) - 65793 * ((255 * M / 16777216 : Nat) + 1), by ring⟩
  unfold rne
  simp only []
  norm_num
  split_ifs with hup
  · by_contra hne
    have hq : 255 * M / 128 + 1 = 131072 * (255 * M / 16777216 + 1) := by omega
    rcases Int.lt_or_le z 1 with hz1 | hz1 <;> omega
  · omega

theorem rne_255_shift8 (M : Nat) (h0 : M < 16777216) (h1 : 2147483648 ≤ 255 * M) :
    rne (255 * M) 8 / 65536 = 255 * M / 16777216 := by
  obtain ⟨z, hz⟩ : ∃ z : Int, (M : Int) = z + 65793 * ((255 * M / 16777216 : Nat) + 1) :=
    ⟨(M : Int) - 65793 * ((255 * M / 16777216 : Nat) + 1), by ring⟩
  unfold rne
  simp only []
  norm_num
  split_ifs with hup
  · by_contra hne
    have hq : 255 * M / 256 + 1 = 65536 * (255 * M / 16777216 + 1) := by omega
    rcases Int.lt_or_le z 1 with hz1 | hz1 <;> omega
  · omega

theorem sig_lt (v : F32) : v.sig < 16777216 := by
  have := v.frac.isLt
  unfold sig
  split <;> omega

theorem sig_subnormal (v : F32) (h : v.expo.val = 0) : v.sig < 8388608 ∧ v.ex = 0 := by
  have := v.frac.isLt
  simp [sig, ex, h]

theorem sig_normal (v : F32) (h : v.expo.val ≠ 0) : 8388608 ≤ v.sig := by
  simp [sig, h]

/-- The magnitude, sign and class of an encoded value that does not overflow. -/
theorem encode_spec (neg : Bool) (s x : Nat) (h1 : s ≤ 16777216) (h2 : s < 8388608 → x = 0)
    (h3 : x + 2 < 255) :
    (encode neg s x).mag = s * 2 ^ x ∧ (encode neg s x).sign = neg
      ∧ (encode neg s x).expo.val ≠ 255 := by
  unfold encode
  by_cases c1 : s < 8388608
  · have hx := h2 c1
    subst hx
    have hs : s % 8388608 = s := Nat.mod_eq_of_lt c1
    simp [c1, mag, sig, ex, Fin.ofNat, hs]
  · by_cases c2 : s < 16777216
    · have hx1 : x + 1 < 255 := by omega
      have hm : (x + 1) % 256 = x + 1 := Nat.mod_eq_of_lt (by omega)
      have hs : (s - 8388608) % 8388608 = s - 8388608 := Nat.mod_eq_of_lt (by omega)
      have hs2 : 8388608 + (s - 8388608) = s := by omega
      simp [c1, c2, hx1, mag, sig, ex, Fin.ofNat, hm, hs, hs2]
      omega
    · have hs : s = 16777216 := by omega
      have hm : (x + 2) % 256 = x + 2 := Nat.mod_eq_of_lt (by omega)
      have hx1 : x + 2 - 1 = x + 1 := by omega
      subst hs
      simp [h3, mag, sig, ex, Fin.ofNat, hm, hx1, pow_succ]
      constructor
      · ring
      · omega

theorem rne_bounds (A D : Nat) (h1 : 2 ^ (23 + D) ≤ A) (h2 : A < 2 ^ (24 + D)) :
    8388608 ≤ rne A D ∧ rne A D ≤ 16777216 := by
  have hD : 0 < 2 ^ D := Nat.two_pow_pos D
  have q1 : 8388608 ≤ A / 2 ^ D := by
    rw [Nat.le_div_iff_mul_le hD]
    have : 2 ^ (23 + D) = 8388608 * 2 ^ D := by rw [pow_add]; norm_num
    omega
  have q2 : A / 2 ^ D < 16777216 := by
    rw [Nat.div_lt_iff_lt_mul hD]
    have : 2 ^ (24 + D) = 16777216 * 2 ^ D := by rw [pow_add]; norm_num
    omega
  unfold rne
  simp only []
  split_ifs <;> omega

theorem rne_zero_shift (A : Nat) : rne A 0 = A := by
  simp [rne, Nat.mod_one]

theorem fmul_f255 (v : F32) (hfin : v.expo.val ≠ 255) :
    fmul v f255 = roundNE v.sign (v.sig * 16711680) ((v.ex : Int) - 16) := by
  have h1 : v.isNaN = false := by simp [isNaN, hfin]
  have h2 : v.isInf = false := by simp [isInf, hfin]
  have h3 : f255.isNaN = false := by decide
  have h4 : f255.isInf = false := by decide
  have h5 : f255.sig = 16711680 := by decide
  have h6 : f255.ex = 133 := by decide
  have h7 : f255.sign = false := by decide
  unfold fmul
  simp only [h1, h2, h3, h4, h5, h6, h7, Bool.false_and, Bool.and_false, Bool.or_self,
    Bool.false_eq_true, if_false, Bool.xor_false]
  have e : ((v.ex : Int) + ((133 : Nat) : Int) - 149) = (v.ex : Int) - 16 := by
    push_cast
    ring
  rw [e]

/-- Rounding `A * 2^16 * 2^(e-16)` when the last place `x` of the result is not below `2^e`. -/
theorem roundNE_scaled (neg : Bool) (A e x : Nat) (hA : A ≠ 0) (hx : x = bitLen A + e - 24)
    (hxe : e ≤ x) :
    roundNE neg (A * 65536) ((e : Int) - 16) = encode neg (rne A (x - e)) x := by
  have hb : bitLen (A * 65536) = bitLen A + 16 := bitLen_mul_pow A 16 hA
  have hr : rne (A * 65536) (16 + (x - e)) = rne A (x - e) := rne_mul_pow A 16 (x - e)
  unfold roundNE
  simp only [hb]
  have e1 : (((bitLen A + 16 : Nat) : Int) + ((e : Int) - 16) - 24).toNat = x := by omega
  rw [e1]
  have e2 : ¬ ((x : Int) ≤ (e : Int) - 16) := by omega
  have e3 : ((x : Int) - ((e : Int) - 16)).toNat = 16 + (x - e) := by omega
  rw [if_neg e2, e3, hr]

theorem mul_pow_div_pow (s a b : Nat) : s * 2 ^ a / 2 ^ (a + b) = s / 2 ^ b := by
  rw [pow_add, Nat.mul_comm (2 ^ a) (2 ^ b)]
  exact Nat.mul_div_mul_right s (2 ^ b) (Nat.two_pow_pos a)

theorem eq_zero_of_sig (v : F32) (h : v.sig = 0) : v = zero v.sign := by
  have hf := v.frac.isLt
  have he : v.expo.val = 0 := by
    by_contra hne
    have := sig_normal v hne
    omega
  have hfr : v.frac.val = 0 := by
    simp [sig, he] at h
    exact h
  cases v with
  | mk s ex fr =>
    simp only [zero, F32.mk.injEq, true_and]
    exact ⟨Fin.ext he, Fin.ext hfr⟩

/-- The product with `255.0f` of a subnormal value stays below `1`. -/
theorem fmul_f255_subnormal (v : F32) (he : v.expo.val = 0) (hs : v.sig ≠ 0) :
    (fmul v f255).sign = v.sign ∧ (fmul v f255).expo.val ≠ 255
      ∧ (fmul v f255).mag < 2 ^ 149 := by
  obtain ⟨hsig, hex⟩ := sig_subnormal v he
  have hfin : v.expo.val ≠ 255 := by omega
  have hA : 255 * v.sig ≠ 0 := by omega
  have hm : v.sig * 16711680 = (255 * v.sig) * 65536 := by ring
  have hr := roundNE_scaled v.sign (255 * v.sig) 0 (bitLen (255 * v.sig) - 24) hA (by omega)
    (Nat.zero_le _)
  rw [fmul_f255 v hfin, hex, hm]
  simp only [Nat.cast_zero, Nat.sub_zero] at hr
  simp only [Nat.cast_zero]
  rw [hr]
  have b1 := lt_pow_bitLen (255 * v.sig)
  have b2 := pow_bitLen_le (255 * v.sig) hA
  by_cases hL : bitLen (255 * v.sig) ≤ 24
  · have hx : bitLen (255 * v.sig) - 24 = 0 := by omega
    have hlt : 255 * v.sig < 16777216 :=
      lt_of_lt_of_le b1 (by
        have := Nat.pow_le_pow_right (by norm_num : 0 < 2) hL
        simpa using this)
    rw [hx, rne_zero_shift]
    obtain ⟨m1, m2, m3⟩ := encode_spec v.sign (255 * v.sig) 0 (by omega) (fun _ => rfl) (by norm_num)
    refine ⟨m2, m3, ?_⟩
    rw [m1]
    norm_num
    omega
  · obtain ⟨D, hD⟩ : ∃ D, bitLen (255 * v.sig) = 24 + D := ⟨bitLen (255 * v.sig) - 24, by omega⟩
    have hD1 : D ≠ 0 := by omega
    have hx : bitLen (255 * v.sig) - 24 = D := by omega
    rw [hD] at b1 b2
    have e1 : 24 + D - 1 = 23 + D := by omega
    rw [e1] at b2
    have hD7 : D < 8 := by
      by_contra hc
      have : 2 ^ (23 + 8) ≤ 2 ^ (23 + D) :=
        Nat.pow_le_pow_right (by norm_num) (by omega)
      norm_num at this
      omega
    rw [hx]
    obtain ⟨r1, r2⟩ := rne_bounds (255 * v.sig) D b2 b1
    obtain ⟨m1, m2, m3⟩ := encode_spec v.sign (rne (255 * v.sig) D) D r2 (by omega) (by omega)
    refine ⟨m2, m3, ?_⟩
    rw [m1]
    have p1 : 2 ^ D ≤ 2 ^ 7 := Nat.pow_le_pow_right (by norm_num) (by omega)
    calc rne (255 * v.sig) D * 2 ^ D ≤ 16777216 * 2 ^ 7 := Nat.mul_le_mul r2 p1
      _ < 2 ^ 149 := by norm_num

/-- The product with `255.0f` of a normal value below `1`: rounding never reaches the next integer. -/
theorem fmul_f255_normal (v : F32) (he : v.expo.val ≠ 0) (hlt : v.mag < 2 ^ 149) :
    (fmul v f255).sign = v.sign ∧ (fmul v f255).expo.val ≠ 255
      ∧ (fmul v f255).mag / 2 ^ 149 = 255 * v.mag / 2 ^ 149 := by
  have hs1 := sig_normal v he
  have hs2 := sig_lt v
  have hex : v.ex ≤ 125 := by
    by_contra hc
    have h1 : 2 ^ 126 ≤ 2 ^ v.ex := Nat.pow_le_pow_right (by norm_num) (by omega)
    have h2 : 8388608 * 2 ^ 126 ≤ v.sig * 2 ^ v.ex := Nat.mul_le_mul hs1 h1
    unfold mag at hlt
    norm_num at h2 hlt
    omega
  have hfin : v.expo.val ≠ 255 := by
    unfold ex at hex
    omega
  obtain ⟨t, ht⟩ : ∃ t, v.ex + t = 125 := ⟨125 - v.ex, by omega⟩
  have hA : 255 * v.sig ≠ 0 := by omega
  have hm : v.sig * 16711680 = (255 * v.sig) * 65536 := by ring
  have hrhs : 255 * v.mag / 2 ^ 149 = 255 * v.sig / 16777216 / 2 ^ t := by
    have e1 : 255 * v.mag = (255 * v.sig) * 2 ^ v.ex := by unfold mag; ring
    have e2 : 149 = v.ex + (24 + t) := by omega
    rw [e1]
    conv_lhs => rw [e2]
    rw [mul_pow_div_pow, pow_add, Nat.div_div_eq_div_mul]
    norm_num
  rw [fmul_f255 v hfin, hm, hrhs]
  by_cases hc : 255 * v.sig < 2147483648
  · have hb : bitLen (255 * v.sig) = 30 + 1 := bitLen_eq _ 30 (by norm_num; omega) (by norm_num; omega)
    have hr := roundNE_scaled v.sign (255 * v.sig) v.ex (v.ex + 7) hA (by omega) (by omega)
    have e3 : v.ex + 7 - v.ex = 7 := by omega
    rw [e3] at hr
    rw [hr]
    obtain ⟨r1, r2⟩ := rne_bounds (255 * v.sig) 7 (by norm_num; omega) (by norm_num; omega)
    obtain ⟨m1, m2, m3⟩ := encode_spec v.sign (rne (255 * v.sig) 7) (v.ex + 7) r2 (by omega) (by omega)
    refine ⟨m2, m3, ?_⟩
    have e2 : 149 = (v.ex + 7) + (17 + t) := by omega
    rw [m1]
    conv_lhs => rw [e2]
    rw [mul_pow_div_pow, pow_add, ← Nat.div_div_eq_div_mul]
    have k := rne_255_shift7 v.sig (by omega) hc
    norm_num
    rw [k]
  · have hb : bitLen (255 * v.sig) = 31 + 1 := bitLen_eq _ 31 (by norm_num; omega) (by norm_num; omega)
    have hr := roundNE_scaled v.sign (255 * v.sig) v.ex (v.ex + 8) hA (by omega) (by omega)
    have e3 : v.ex + 8 - v.ex = 8 := by omega
    rw [e3] at hr
    rw [hr]
    obtain ⟨r1, r2⟩ := rne_bounds (255 * v.sig) 8 (by norm_num; omega) (by norm_num; omega)
    obtain ⟨m1, m2, m3⟩ := encode_spec v.sign (rne (255 * v.sig) 8) (v.ex + 8) r2 (by omega) (by omega)
    refine ⟨m2, m3, ?_⟩
    have e2 : 149 = (v.ex + 8) + (16 + t) := by omega
    rw [m1]
    conv_lhs => rw [e2]
    rw [mul_pow_div_pow, pow_add, ← Nat.div_div_eq_div_mul]
    have k := rne_255_shift8 v.sig hs2 (by omega)
    norm_num
    rw [k]

theorem toUChar_small_int : ∀ N : Nat, N < 256 → N ≠ 0 →
    toUChar (roundNE false N 149) = some N := by decide

theorem toUChar_zero : toUChar (zero false) = some 0 := by decide

theorem toInt_of_pos (p : F32) (hs : p.sign = false) : p.toInt = (p.mag : Int) := by
  simp [toInt, hs]

/-- The byte `toUChar (floor p)` for a non-negative finite `p` below `256`. -/
theorem floor_toUChar (p : F32) (hs : p.sign = false) (hfin : p.expo.val ≠ 255) (N : Nat)
    (hN : p.mag / 2 ^ 149 = N) (h255 : N ≤ 255) : toUChar (floor p) = some N := by
  have hex : ¬ (149 ≤ p.ex) := by
    intro hc
    have he : p.expo.val ≠ 0 := by
      unfold ex at hc
      omega
    have hs1 := sig_normal p he
    have h1 : 2 ^ 149 ≤ 2 ^ p.ex := Nat.pow_le_pow_right (by norm_num) hc
    have h2 : 8388608 * 2 ^ 149 ≤ p.sig * 2 ^ p.ex := Nat.mul_le_mul hs1 h1
    have h3 : 8388608 ≤ p.mag / 2 ^ 149 := by
      rw [Nat.le_div_iff_mul_le (Nat.two_pow_pos 149)]
      exact h2
    omega
  have hi : Int.fdiv p.toInt (2 ^ 149) = (N : Int) := by
    rw [toInt_of_pos p hs, Int.fdiv_eq_ediv _ (by positivity), ← hN]
    norm_cast
  unfold floor
  rw [if_neg hfin, if_neg hex]
  simp only [hi]
  by_cases h0 : N = 0
  · subst h0
    rw [if_pos (by simp), hs]
    exact toUChar_zero
  · have h1 : ¬ ((N : Int) = 0) := by omega
    have h2 : decide ((N : Int) < 0) = false := by simp
    rw [if_neg h1, h2, Int.natAbs_ofNat]
    exact toUChar_small_int N (by omega) h0

theorem toRat_of_pos (v : F32) (hs : v.sign = false ∨ v.mag = 0) :
    v.toRat = (v.mag : ℚ) / 2 ^ 149 := by
  unfold toRat toInt
  rcases hs with hs | hs
  · simp [hs]
  · simp [hs]

/-- The floor of `255` times the value of a non-negative `v`, in integer arithmetic. -/
theorem floor_toRat_mul (v : F32) (hs : v.sign = false ∨ v.mag = 0) :
    ⌊v.toRat * 255⌋₊ = 255 * v.mag / 2 ^ 149 := by
  rw [toRat_of_pos v hs]
  have e : (v.mag : ℚ) / 2 ^ 149 * 255
      = ((255 * v.mag : Nat) : ℚ) / ((2 ^ 149 : Nat) : ℚ) := by
    push_cast
    ring
  rw [e, Nat.floor_div_eq_div]

theorem eq_one_of_mag (v : F32) (hs : v.sign = false) (hm : v.mag = 2 ^ 149) : v = one := by
  have hf := v.frac.isLt
  have he : v.expo.val ≠ 0 := by
    intro hc
    obtain ⟨a, b⟩ := sig_subnormal v hc
    unfold mag at hm
    rw [b] at hm
    norm_num at hm
    omega
  have hs1 := sig_normal v he
  have hs2 := sig_lt v
  have hex : v.ex = 126 := by
    by_contra hne
    rcases Nat.lt_or_ge v.ex 126 with h | h
    · have h1 : 2 ^ v.ex ≤ 2 ^ 125 := Nat.pow_le_pow_right (by norm_num) (by omega)
      have h2 : v.sig * 2 ^ v.ex ≤ 16777215 * 2 ^ 125 := Nat.mul_le_mul (by omega) h1
      unfold mag at hm
      norm_num at h2 hm
      omega
    · have h1 : 2 ^ 127 ≤ 2 ^ v.ex := Nat.pow_le_pow_right (by norm_num) (by omega)
      have h2 : 8388608 * 2 ^ 127 ≤ v.sig * 2 ^ v.ex := Nat.mul_le_mul hs1 h1
      unfold mag at hm
      norm_num at h2 hm
      omega
  have hsig : v.sig = 8388608 := by
    unfold mag at hm
    rw [hex] at hm
    norm_num at hm
    omega
  have hfr : v.frac.val = 0 := by
    simp [sig, he] at hsig
    exact hsig
  have hexp : v.expo.val = 127 := by
    unfold ex at hex
    omega
  cases v with
  | mk s ex fr =>
    simp only at hs hexp hfr
    subst hs
    simp only [one, F32.mk.injEq, true_and]
    exact ⟨Fin.ext hexp, Fin.ext hfr⟩

theorem quantize_zero (b : Bool) :
    toUChar (floor (fmul (zero b) f255)) = some (255 * (zero b).mag / 2 ^ 149)
      ∧ 255 * (zero b).mag / 2 ^ 149 ≤ 255
      ∧ (255 * (zero b).mag / 2 ^ 149 = 255 ↔ zero b = one) := by
  cases b <;> decide

theorem quantize_one :
    toUChar (floor (fmul one f255)) = some (255 * one.mag / 2 ^ 149)
      ∧ 255 * one.mag / 2 ^ 149 ≤ 255
      ∧ (255 * one.mag / 2 ^ 149 = 255 ↔ one = one) := by
  decide

/-- A value `v` with `0 <= v` and `v <= 1` is not negative (or is `-0`) and has magnitude at most `2^149`. -/
theorem unit_range (v : F32) (h0 : le (zero false) v = true) (h1 : le v one = true) :
    (v.sign = false ∨ v.mag = 0) ∧ v.mag ≤ 2 ^ 149 := by
  have z0 : (zero false).toInt = 0 := by decide
  simp only [le, Bool.and_eq_true, decide_eq_true_eq, z0, one_toInt] at h0 h1
  obtain ⟨_, h0⟩ := h0
  obtain ⟨_, h1⟩ := h1
  unfold toInt at h0 h1
  cases hs : v.sign
  · simp only [hs, Bool.false_eq_true, if_false] at h0 h1
    refine ⟨Or.inl rfl, ?_⟩
    exact_mod_cast h1
  · simp only [hs, if_true] at h0 h1
    have hm : v.mag = 0 := by omega
    refine ⟨Or.inr hm, ?_⟩
    rw [hm]
    positivity

/-- One channel of `toRGB` on a value in `[0, 1]`: the byte is the floor of `255` times the value. -/
theorem quantize_unit (v : F32) (h0 : le (zero false) v = true) (h1 : le v one = true) :
    toUChar (floor (fmul v f255)) = some (255 * v.mag / 2 ^ 149)
      ∧ 255 * v.mag / 2 ^ 149 ≤ 255
      ∧ (255 * v.mag / 2 ^ 149 = 255 ↔ v = one) := by
  obtain ⟨hsign, hmag⟩ := unit_range v h0 h1
  by_cases hz : v.sig = 0
  · rw [eq_zero_of_sig v hz]
    exact quantize_zero v.sign
  by_cases hone : v = one
  · rw [hone]
    exact quantize_one
  have hm0 : v.mag ≠ 0 := by
    unfold mag
    exact Nat.mul_ne_zero hz (Nat.ne_of_gt (Nat.two_pow_pos _))
  have hs : v.sign = false := by
    rcases hsign with h | h
    · exact h
    · exact absurd h hm0
  have hlt : v.mag < 2 ^ 149 := by
    rcases Nat.lt_or_ge v.mag (2 ^ 149) with h | h
    · exact h
    · exact absurd (eq_one_of_mag v hs (Nat.le_antisymm hmag h)) hone
  have hN : 255 * v.mag / 2 ^ 149 < 255 := by
    rw [Nat.div_lt_iff_lt_mul (Nat.two_pow_pos 149)]
    omega
  refine ⟨?_, by omega, ?_⟩
  · by_cases he : v.expo.val = 0
    · obtain ⟨p1, p2, p3⟩ := fmul_f255_subnormal v he hz
      obtain ⟨a1, a2⟩ := sig_subnormal v he
      have hr : 255 * v.mag / 2 ^ 149 = 0 := by
        apply Nat.div_eq_of_lt
        unfold mag
        rw [a2]
        norm_num
        omega
      rw [hr]
      exact floor_toUChar _ (by rw [p1, hs]) p2 0 (Nat.div_eq_of_lt p3) (by norm_num)
    · obtain ⟨p1, p2, p3⟩ := fmul_f255_normal v he hlt
      exact floor_toUChar _ (by rw [p1, hs]) p2 _ p3 (by omega)
  · constructor
    · intro h
      omega
    · intro h
      exact absurd h hone

/-! ### rounding bounds -/

theorem rne_le_succ (m d : Nat) : rne m d ≤ m / 2 ^ d + 1 := by
  unfold rne
  simp only []
  split_ifs <;> omega

theorem div_le_rne (m d : Nat) : m / 2 ^ d ≤ rne m d := by
  unfold rne
  simp only []
  split_ifs <;> omega

theorem rne_zero (d : Nat) : rne 0 d = 0 := by
  have h : 0 < 2 ^ d := Nat.two_pow_pos d
  unfold rne
  simp only [Nat.zero_div, Nat.zero_mod, Nat.mul_zero]
  rw [if_neg]
  omega

theorem roundNE_zero (neg : Bool) (e : Int) : roundNE neg 0 e = zero neg := by
  unfold roundNE
  simp only [Nat.zero_mul, rne_zero, ite_self]
  rfl

/-- The magnitude, sign and class of a rounded value that does not overflow: the significand
    is the exact or the rounded quotient, the last place is `2^x`. -/
theorem roundNE_mag (neg : Bool) (m : Nat) (e : Int) (x : Nat) (hm : m ≠ 0)
    (hx : x = ((bitLen m : Int) + e - 24).toNat) (hov : x + 2 < 255) :
    (roundNE neg m e).mag
        = (if (x : Int) ≤ e then m * 2 ^ (e - x).toNat else rne m ((x : Int) - e).toNat) * 2 ^ x
      ∧ (roundNE neg m e).sign = neg ∧ (roundNE neg m e).expo.val ≠ 255 := by
  have b1 := lt_pow_bitLen m
  have b2 := pow_bitLen_le m hm
  have hL : bitLen m ≠ 0 := by
    intro h
    rw [h] at b1
    simp at b1
    exact hm b1
  unfold roundNE
  simp only [← hx]
  apply encode_spec _ _ _ _ _ hov
  · -- the significand is at most `2^24`
    by_cases hb : (x : Int) ≤ e
    · rw [if_pos hb]
      obtain ⟨j, hj⟩ : ∃ j : Nat, (e - x).toNat = j := ⟨_, rfl⟩
      rw [hj]
      have hle : bitLen m + j ≤ 24 := by omega
      calc m * 2 ^ j ≤ 2 ^ bitLen m * 2 ^ j := Nat.mul_le_mul_right _ (Nat.le_of_lt b1)
        _ = 2 ^ (bitLen m + j) := by rw [pow_add]
        _ ≤ 2 ^ 24 := Nat.pow_le_pow_right (by norm_num) hle
        _ = 16777216 := by norm_num
    · rw [if_neg hb]
      obtain ⟨d, hd⟩ : ∃ d : Nat, ((x : Int) - e).toNat = d := ⟨_, rfl⟩
      rw [hd]
      have hle : bitLen m ≤ 24 + d := by omega
      have h1 : m < 2 ^ (24 + d) := lt_of_lt_of_le b1 (Nat.pow_le_pow_right (by norm_num) hle)
      have h2 : m / 2 ^ d < 16777216 := by
        rw [Nat.div_lt_iff_lt_mul (Nat.two_pow_pos d)]
        have : 2 ^ (24 + d) = 16777216 * 2 ^ d := by rw [pow_add]; norm_num
        omega
      have h3 := rne_le_succ m d
      omega
  · -- a significand below `2^23` occurs only at the lowest last place
    intro hs
    by_contra hx0
    by_cases hb : (x : Int) ≤ e
    · rw [if_pos hb] at hs
      obtain ⟨j, hj⟩ : ∃ j : Nat, (e - x).toNat = j := ⟨_, rfl⟩
      rw [hj] at hs
      obtain ⟨L, hL'⟩ := Nat.exists_eq_succ_of_ne_zero hL
      rw [hL', Nat.succ_sub_one] at b2
      have hle : L + j = 23 := by omega
      have : 2 ^ 23 ≤ m * 2 ^ j := by
        calc 2 ^ 23 = 2 ^ L * 2 ^ j := by rw [← pow_add, hle]
          _ ≤ m * 2 ^ j := Nat.mul_le_mul_right _ b2
      norm_num at this
      omega
    · rw [if_neg hb] at hs
      obtain ⟨d, hd⟩ : ∃ d : Nat, ((x : Int) - e).toNat = d := ⟨_, rfl⟩
      rw [hd] at hs
      have e1 : bitLen m - 1 = 23 + d := by omega
      have e2 : bitLen m = 24 + d := by omega
      rw [e1] at b2
      rw [e2] at b1
      have := (rne_bounds m d b2 b1).1
      omega

theorem rne_le_of_le (m d N : Nat) (h : m ≤ N * 2 ^ d) : rne m d ≤ N := by
  have hP : 0 < 2 ^ d := Nat.two_pow_pos d
  have hq : m / 2 ^ d ≤ N := by
    have := Nat.div_le_div_right (c := 2 ^ d) h
    rwa [Nat.mul_div_cancel _ hP] at this
  have hmod := Nat.div_add_mod m (2 ^ d)
  by_cases hqN : m / 2 ^ d = N
  · have hr : m % 2 ^ d = 0 := by
      rw [hqN] at hmod
      have : 2 ^ d * N = N * 2 ^ d := Nat.mul_comm _ _
      omega
    unfold rne
    simp only [hr, hqN]
    rw [if_neg]
    omega
  · have := rne_le_succ m d
    omega

/-- Rounding does not cross a representable value from below: if the exact magnitude
    `m * 2^e` is at most the magnitude of the value `t`, so is the rounded magnitude.
    The inequality is given scaled by `2^k`, with `E = e + k`. -/
theorem roundNE_le (neg : Bool) (m : Nat) (e : Int) (k E : Nat) (hE : (E : Int) = e + k)
    (t : F32) (ht : t.ex ≤ 250) (h : m * 2 ^ E ≤ t.mag * 2 ^ k) :
    (roundNE neg m e).mag ≤ t.mag ∧ (roundNE neg m e).sign = neg
      ∧ (roundNE neg m e).expo.val ≠ 255 := by
  by_cases hm : m = 0
  · subst hm
    rw [roundNE_zero]
    exact ⟨Nat.zero_le _, rfl, by simp [zero]⟩
  have b2 := pow_bitLen_le m hm
  have hk : 0 < 2 ^ k := Nat.two_pow_pos k
  obtain ⟨x, hx⟩ : ∃ x : Nat, x = ((bitLen m : Int) + e - 24).toNat := ⟨_, rfl⟩
  have hst := sig_lt t
  have hxt : x ≤ t.ex := by
    by_contra hc
    have h1 : 2 ^ (bitLen m - 1) * 2 ^ E ≤ t.mag * 2 ^ k :=
      le_trans (Nat.mul_le_mul_right _ b2) h
    have h2 : t.mag * 2 ^ k < 2 ^ (24 + t.ex + k) := by
      have : t.mag < 2 ^ (24 + t.ex) := by
        unfold mag
        rw [pow_add]
        exact Nat.mul_lt_mul_of_pos_right (by norm_num; exact hst) (Nat.two_pow_pos _)
      rw [pow_add (2) (24 + t.ex) k]
      exact Nat.mul_lt_mul_of_pos_right this hk
    rw [← pow_add] at h1
    have h3 := (Nat.pow_lt_pow_iff_right (by norm_num : 1 < 2)).1 (lt_of_le_of_lt h1 h2)
    omega
  obtain ⟨r1, r2, r3⟩ := roundNE_mag neg m e x hm hx (by omega)
  refine ⟨?_, r2, r3⟩
  rw [r1]
  obtain ⟨y, hy⟩ : ∃ y : Nat, t.ex = x + y := ⟨t.ex - x, by omega⟩
  have hT : t.mag = (t.sig * 2 ^ y) * 2 ^ x := by
    unfold mag
    rw [hy, pow_add]
    ring
  by_cases hb : (x : Int) ≤ e
  · rw [if_pos hb]
    obtain ⟨j, hj⟩ : ∃ j : Nat, (e - x).toNat = j := ⟨_, rfl⟩
    rw [hj]
    have hEj : E = j + x + k := by omega
    have h' : (m * 2 ^ j * 2 ^ x) * 2 ^ k ≤ t.mag * 2 ^ k := by
      have : m * 2 ^ j * 2 ^ x * 2 ^ k = m * 2 ^ E := by
        rw [hEj, pow_add, pow_add]
        ring
      rw [this]
      exact h
    exact Nat.le_of_mul_le_mul_right h' hk
  · rw [if_neg hb]
    obtain ⟨d, hd⟩ : ∃ d : Nat, ((x : Int) - e).toNat = d := ⟨_, rfl⟩
    rw [hd]
    have hxk : x + k = d + E := by omega
    have h' : m * 2 ^ E ≤ (t.sig * 2 ^ y * 2 ^ d) * 2 ^ E := by
      have : t.mag * 2 ^ k = (t.sig * 2 ^ y * 2 ^ d) * 2 ^ E := by
        rw [hT]
        have : t.sig * 2 ^ y * 2 ^ x * 2 ^ k = t.sig * 2 ^ y * 2 ^ (x + k) := by
          rw [pow_add]
          ring
        rw [this, hxk, pow_add]
        ring
      rw [← this]
      exact h
    have h'' : m ≤ t.sig * 2 ^ y * 2 ^ d := Nat.le_of_mul_le_mul_right h' (Nat.two_pow_pos E)
    have := rne_le_of_le m d (t.sig * 2 ^ y) h''
    rw [hT]
    exact Nat.mul_le_mul_right _ this

theorem finite_of_mag_le (v : F32) (h : v.mag ≤ 2 ^ 149) : v.expo.val ≠ 255 ∧ v.ex ≤ 126 := by
  have hlt := v.expo.isLt
  by_cases he : v.expo.val = 0
  · unfold ex
    omega
  · have hs := sig_normal v he
    have hx : v.ex ≤ 126 := by
      by_contra hc
      have h1 : 2 ^ 127 ≤ 2 ^ v.ex := Nat.pow_le_pow_right (by norm_num) (by omega)
      have h2 : 8388608 * 2 ^ 127 ≤ v.sig * 2 ^ v.ex := Nat.mul_le_mul hs h1
      unfold mag at h
      norm_num at h2 h
      omega
    refine ⟨?_, hx⟩
    unfold ex at hx
    omega

theorem isNaN_of_finite (v : F32) (h : v.expo.val ≠ 255) : v.isNaN = false ∧ v.isInf = false := by
  simp [isNaN, isInf, h]

theorem toInt_nonneg (v : F32) (hs : v.sign = false ∨ v.mag = 0) : v.toInt = (v.mag : Int) := by
  unfold toInt
  rcases hs with h | h
  · simp [h]
  · simp [h]

theorem nonneg_of_zero_le (v : F32) (h0 : le (zero false) v = true) :
    v.sign = false ∨ v.mag = 0 := by
  have z0 : (zero false).toInt = 0 := by decide
  simp only [le, Bool.and_eq_true, decide_eq_true_eq, z0] at h0
  obtain ⟨_, h0⟩ := h0
  unfold toInt at h0
  cases hs : v.sign
  · exact Or.inl rfl
  · simp only [hs, if_true] at h0
    exact Or.inr (by omega)

/-- Comparison of two finite non-negative values is comparison of their magnitudes. -/
theorem le_iff_mag (a b : F32) (ha : a.expo.val ≠ 255) (hb : b.expo.val ≠ 255)
    (sa : a.sign = false ∨ a.mag = 0) (sb : b.sign = false ∨ b.mag = 0) :
    le a b = true ↔ a.mag ≤ b.mag := by
  unfold le
  rw [(isNaN_of_finite a ha).1, (isNaN_of_finite b hb).1, toInt_nonneg a sa, toInt_nonneg b sb]
  simp

theorem zero_le_of_nonneg (v : F32) (hv : v.expo.val ≠ 255) (sv : v.sign = false ∨ v.mag = 0) :
    le (zero false) v = true := by
  rw [le_iff_mag _ _ (by decide) hv (Or.inl rfl) sv]
  exact Nat.zero_le _

theorem one_mag : one.mag = 2 ^ 149 := by decide

/-- A finite non-negative value of magnitude at most `2^149` lies in `[0, 1]`. -/
theorem inUnit_of_mag (v : F32) (sv : v.sign = false ∨ v.mag = 0) (h : v.mag ≤ 2 ^ 149) :
    v.inUnit := by
  have hv := (finite_of_mag_le v h).1
  refine ⟨zero_le_of_nonneg v hv sv, ?_⟩
  rw [le_iff_mag _ _ hv (by decide) sv (Or.inl rfl), one_mag]
  exact h

theorem fmul_finite (a b : F32) (ha : a.expo.val ≠ 255) (hb : b.expo.val ≠ 255) :
    fmul a b = roundNE (xor a.sign b.sign) (a.sig * b.sig) ((a.ex : Int) + b.ex - 149) := by
  unfold fmul
  simp only [(isNaN_of_finite a ha).1, (isNaN_of_finite a ha).2, (isNaN_of_finite b hb).1,
    (isNaN_of_finite b hb).2, Bool.false_and, Bool.and_false, Bool.or_self,
    Bool.false_eq_true, if_false]

/-- The product of two finite values does not exceed a representable bound on the exact product. -/
theorem fmul_mag_le (a b t : F32) (ha : a.expo.val ≠ 255) (hb : b.expo.val ≠ 255)
    (ht : t.ex ≤ 250) (h : a.mag * b.mag ≤ t.mag * 2 ^ 149) :
    (fmul a b).mag ≤ t.mag ∧ (fmul a b).sign = xor a.sign b.sign
      ∧ (fmul a b).expo.val ≠ 255 := by
  rw [fmul_finite a b ha hb]
  apply roundNE_le _ _ _ 149 (a.ex + b.ex) (by push_cast; ring) t ht
  have : a.sig * b.sig * 2 ^ (a.ex + b.ex) = a.mag * b.mag := by
    unfold mag
    rw [pow_add]
    ring
  rw [this]
  exact h

/-- The product of two finite non-negative values of magnitude at most `2^149`: it is finite,
    non-negative and at most either factor. -/
theorem fmul_unit_mag (x y : F32) (sx : x.sign = false ∨ x.mag = 0) (mx : x.mag ≤ 2 ^ 149)
    (sy : y.sign = false ∨ y.mag = 0) (my : y.mag ≤ 2 ^ 149) :
    (fmul x y).mag ≤ x.mag ∧ (fmul x y).mag ≤ y.mag
      ∧ ((fmul x y).sign = false ∨ (fmul x y).mag = 0) ∧ (fmul x y).expo.val ≠ 255 := by
  obtain ⟨fx, ex⟩ := finite_of_mag_le x mx
  obtain ⟨fy, ey⟩ := finite_of_mag_le y my
  obtain ⟨p1, p2, p3⟩ := fmul_mag_le x y x fx fy (by omega) (Nat.mul_le_mul_left _ my)
  obtain ⟨q1, _, _⟩ := fmul_mag_le x y y fx fy (by omega)
    (by rw [Nat.mul_comm]; exact Nat.mul_le_mul_left _ mx)
  refine ⟨p1, q1, ?_, p3⟩
  rcases sx with hsx | hmx
  · rcases sy with hsy | hmy
    · left
      rw [p2, hsx, hsy]
      rfl
    · right
      omega
  · right
    omega

/-- The product of two values in `[0, 1]` lies in `[0, 1]` and is at most either factor. -/
theorem fmul_unit (x y : F32) (hx : x.inUnit) (hy : y.inUnit) :
    (fmul x y).inUnit ∧ le (fmul x y) x = true ∧ le (fmul x y) y = true := by
  obtain ⟨sx, mx⟩ := unit_range x hx.1 hx.2
  obtain ⟨sy, my⟩ := unit_range y hy.1 hy.2
  obtain ⟨p1, q1, sp, p3⟩ := fmul_unit_mag x y sx mx sy my
  refine ⟨inUnit_of_mag _ sp (le_trans p1 mx), ?_, ?_⟩
  · rw [le_iff_mag _ _ p3 (finite_of_mag_le x mx).1 sp sx]
    exact p1
  · rw [le_iff_mag _ _ p3 (finite_of_mag_le y my).1 sp sy]
    exact q1

theorem one_toRat : one.toRat = 1 := by
  rw [toRat, one_toInt]
  norm_num

/-- One channel of `clampColour` followed by `toRGB` on a value `v >= 0`: the byte is the floor
    of `255 * min(v, 1)`, at most `255`, and `255` exactly when `1 <= v`. -/
theorem quantize_clamped (v : F32) (h0 : le (zero false) v = true) :
    (F32.min v one).inUnit
      ∧ toUChar (floor (fmul (F32.min v one) f255)) = some ⌊255 * Min.min v.toRat 1⌋₊
      ∧ ⌊255 * Min.min v.toRat 1⌋₊ ≤ 255
      ∧ (⌊255 * Min.min v.toRat 1⌋₊ = 255 ↔ le one v = true) := by
  have hnan : v.isNaN = false := ((zero_le_iff v).1 h0).1
  have h1nan : one.isNaN = false := by decide
  have sv := nonneg_of_zero_le v h0
  by_cases hv : le v one = true
  · have hmin : F32.min v one = v := by simp [F32.min, hv]
    have hr : v.toRat ≤ 1 := ((le_one_iff v).1 hv).2
    have hq : ⌊255 * Min.min v.toRat 1⌋₊ = 255 * v.mag / 2 ^ 149 := by
      rw [min_eq_left hr, mul_comm]
      exact floor_toRat_mul v sv
    obtain ⟨q1, q2, q3⟩ := quantize_unit v h0 hv
    rw [hmin, hq]
    refine ⟨⟨h0, hv⟩, q1, q2, ?_⟩
    rw [q3]
    obtain ⟨_, mv⟩ := unit_range v h0 hv
    obtain ⟨fv, _⟩ := finite_of_mag_le v mv
    constructor
    · intro h
      rw [h]
      decide
    · intro h
      have h2 := (le_iff_mag one v (by decide) fv (Or.inl rfl) sv).1 h
      rw [one_mag] at h2
      have hm : v.mag = 2 ^ 149 := Nat.le_antisymm mv h2
      have hs : v.sign = false := by
        rcases sv with h | h
        · exact h
        · rw [h] at hm
          norm_num at hm
      exact eq_one_of_mag v hs hm
  · have hmin : F32.min v one = one := by simp [F32.min, hv]
    have hr : ¬ (v.toRat ≤ 1) := fun h => hv ((le_one_iff v).2 ⟨hnan, h⟩)
    have hq : ⌊255 * Min.min v.toRat 1⌋₊ = 255 := by
      rw [min_eq_right (le_of_lt (lt_of_not_le hr))]
      norm_num
    have h1 : le one v = true := by
      simp only [le, hnan, h1nan, Bool.not_false, Bool.true_and, decide_eq_true_eq] at hv ⊢
      omega
    rw [hmin, hq]
    refine ⟨by decide, ?_, le_refl _, ?_⟩
    · have := quantize_one.1
      rw [this]
      decide
    · simp [h1]

theorem quiet_isNaN (a : F32) (h : a.expo.val = 255) : (quiet a).isNaN = true := by
  have hf := a.frac.isLt
  have hlt : a.frac.val ||| 4194304 < 2 ^ 23 :=
    Nat.or_lt_two_pow (by norm_num) (by norm_num)
  have hne : a.frac.val ||| 4194304 ≠ 0 := by
    intro h0
    have hb : (a.frac.val ||| 4194304).testBit 22 = true := by
      rw [Nat.testBit_or]
      have : (4194304 : Nat).testBit 22 = true := by decide
      simp [this]
    rw [h0] at hb
    simp at hb
  have hm : (a.frac.val ||| 4194304) % 8388608 = a.frac.val ||| 4194304 :=
    Nat.mod_eq_of_lt (by norm_num at hlt; exact hlt)
  simp [isNaN, quiet, h, Fin.ofNat, hm, hne]

/-- A product with a NaN factor is a NaN. -/
theorem fmul_isNaN (a b : F32) (h : a.isNaN = true ∨ b.isNaN = true) :
    (fmul a b).isNaN = true := by
  have expo_of : ∀ v : F32, v.isNaN = true → v.expo.val = 255 := by
    intro v hv
    simp [isNaN] at hv
    exact hv.1
  unfold fmul
  by_cases ha : a.isNaN = true
  · rw [if_pos ha]
    exact quiet_isNaN a (expo_of a ha)
  · rw [if_neg ha]
    rcases h with h | h
    · exact absurd h ha
    · rw [if_pos h]
      exact quiet_isNaN b (expo_of b h)

/-- The product does not depend on the order of the factors unless both are NaNs. -/
theorem fmul_comm (a b : F32) (h : ¬ (a.isNaN = true ∧ b.isNaN = true)) :
    fmul a b = fmul b a := by
  unfold fmul
  by_cases ha : a.isNaN = true
  · have hb : ¬ (b.isNaN = true) := fun hb => h ⟨ha, hb⟩
    simp [ha, hb]
  · by_cases hb : b.isNaN = true
    · simp [ha, hb]
    · have e1 : ((a.isInf && decide (b.mag = 0)) || (decide (a.mag = 0) && b.isInf))
          = ((b.isInf && decide (a.mag = 0)) || (decide (b.mag = 0) && a.isInf)) := by
        cases a.isInf <;> cases b.isInf <;> simp [Bool.or_comm]
      have e2 : (a.isInf || b.isInf) = (b.isInf || a.isInf) := Bool.or_comm _ _
      have e3 : xor a.sign b.sign = xor b.sign a.sign := Bool.xor_comm _ _
      have e4 : a.sig * b.sig = b.sig * a.sig := Nat.mul_comm _ _
      have e5 : ((a.ex : Int) + b.ex - 149) = ((b.ex : Int) + a.ex - 149) := by ring
      rw [if_neg ha, if_neg hb, if_neg hb, if_neg ha, e1, e2, e3, e4, e5]

end F32

/-! ## the claims -/

/-- C1: `clampColour` replaces each channel `v` independently by `v` if `v <= 1.0f` and by
    `1.0f` otherwise, where `v <= 1.0f` holds exactly for a non-NaN `v` of value at most `1`;
    the colour `(-0.5, -0.5, -0.5)` is left unchanged. -/
theorem clampColour_min_one :
    (∀ c : colour, c.clampColour =
        ⟨if F32.le c.r F32.one then c.r else F32.one,
         if F32.le c.g F32.one then c.g else F32.one,
         if F32.le c.b F32.one then c.b else F32.one⟩)
    ∧ (∀ v : F32, F32.le v F32.one = true ↔ (v.isNaN = false ∧ v.toRat ≤ 1))
    ∧ colour.clampColour ⟨F32.lit true 1 2, F32.lit true 1 2, F32.lit true 1 2⟩
        = ⟨F32.lit true 1 2, F32.lit true 1 2, F32.lit true 1 2⟩
    ∧ (F32.lit true 1 2).toRat = -1 / 2 := by
  refine ⟨fun c => rfl, F32.le_one_iff, by decide, ?_⟩
  have h : (F32.lit true 1 2).toInt = -2 ^ 148 := by decide
  rw [F32.toRat, h]
  norm_num

/-- C2: evaluated at `colour(-0.5, 0, 0)`: after `clampColour` the red channel is still
    `-0.5`, which is not a value with `0 <= channel`; the doc comment of the function
    promises the range `[0, 1]`. -/
theorem clampColour_keeps_negative :
    (colour.clampColour ⟨F32.lit true 1 2, F32.zero false, F32.zero false⟩).r = F32.lit true 1 2
    ∧ F32.le (F32.zero false)
        (colour.clampColour ⟨F32.lit true 1 2, F32.zero false, F32.zero false⟩).r = false
    ∧ (colour.clampColour ⟨F32.lit true 1 2, F32.zero false, F32.zero false⟩).r.toRat = -1 / 2 := by
  refine ⟨by decide, by decide, ?_⟩
  have h : (colour.clampColour ⟨F32.lit true 1 2, F32.zero false, F32.zero false⟩).r.toInt
      = -2 ^ 148 := by decide
  rw [F32.toRat, h]
  norm_num

/-- C3: for every colour whose channels all lie in `[0, 1]`, `toRGB` is defined and outputs for
    each channel the floor of `255` times the channel value; each output is at most `255`, and
    it is `255` exactly when the channel is `1.0f`. -/
theorem toRGB_unit_floor (c : colour) (hr : c.r.inUnit) (hg : c.g.inUnit) (hb : c.b.inUnit) :
    c.toRGB = some (⌊c.r.toRat * 255⌋₊, ⌊c.g.toRat * 255⌋₊, ⌊c.b.toRat * 255⌋₊)
    ∧ (⌊c.r.toRat * 255⌋₊ ≤ 255 ∧ ⌊c.g.toRat * 255⌋₊ ≤ 255 ∧ ⌊c.b.toRat * 255⌋₊ ≤ 255)
    ∧ ((⌊c.r.toRat * 255⌋₊ = 255 ↔ c.r = F32.one)
        ∧ (⌊c.g.toRat * 255⌋₊ = 255 ↔ c.g = F32.one)
        ∧ (⌊c.b.toRat * 255⌋₊ = 255 ↔ c.b = F32.one)) := by
  rw [F32.floor_toRat_mul c.r (F32.unit_range c.r hr.1 hr.2).1,
    F32.floor_toRat_mul c.g (F32.unit_range c.g hg.1 hg.2).1,
    F32.floor_toRat_mul c.b (F32.unit_range c.b hb.1 hb.2).1]
  obtain ⟨r1, r2, r3⟩ := F32.quantize_unit c.r hr.1 hr.2
  obtain ⟨g1, g2, g3⟩ := F32.quantize_unit c.g hg.1 hg.2
  obtain ⟨b1, b2, b3⟩ := F32.quantize_unit c.b hb.1 hb.2
  refine ⟨?_, ⟨r2, g2, b2⟩, ⟨r3, g3, b3⟩⟩
  unfold colour.toRGB
  rw [r1, g1, b1]
  rfl

/-- C3 at the colour `(0.0, 0.5, 1.0)`: the three channels lie in `[0, 1]` and `toRGB`
    gives the floors of `0`, `127.5` and `255`. -/
theorem toRGB_unit_floor_witness :
    (F32.lit false 0 1).inUnit ∧ (F32.lit false 1 2).inUnit ∧ (F32.lit false 1 1).inUnit
    ∧ colour.toRGB ⟨F32.lit false 0 1, F32.lit false 1 2, F32.lit false 1 1⟩
        = some (⌊(F32.lit false 0 1).toRat * 255⌋₊, ⌊(F32.lit false 1 2).toRat * 255⌋₊,
            ⌊(F32.lit false 1 1).toRat * 255⌋₊) :=
  ⟨by decide, by decide, by decide,
    (toRGB_unit_floor ⟨F32.lit false 0 1, F32.lit false 1 2, F32.lit false 1 1⟩
      (by decide) (by decide) (by decide)).1⟩

/-- C4: `toRGB` quantizes by floor: the channel values `0.0`, `0.5`, `0.999999`, `1.0` and
    `0.999` give `0`, `127`, `254`, `255` and `254`; at `0.5` the rounded value would be `128`. -/
theorem toRGB_floor_examples :
    colour.toRGB ⟨F32.lit false 0 1, F32.lit false 1 2, F32.lit false 999999 1000000⟩
        = some (0, 127, 254)
    ∧ colour.toRGB ⟨F32.lit false 1 1, F32.lit false 999 1000, F32.lit false 1 2⟩
        = some (255, 254, 127)
    ∧ round ((F32.lit false 1 2).toRat * 255) = 128 := by
  refine ⟨by decide, by decide, ?_⟩
  rw [F32.half_toRat, round_eq]
  norm_num

/-- C5: constructing `colour(r, g, b)` and reading through the indexed accessor with `RED`,
    `GREEN`, `BLUE` returns `r`, `g`, `b`; the array member holds the same three words in that
    order, slot `i` being the channel with selector value `i`. -/
theorem new_index_roundtrip (r g b : F32) :
    (colour.new r g b).index .RED = r
    ∧ (colour.new r g b).index .GREEN = g
    ∧ (colour.new r g b).index .BLUE = b
    ∧ (colour.new r g b).rgb = [r, g, b]
    ∧ (∀ ch : Colour, (colour.new r g b).rgb[ch.toNat]? = some ((colour.new r g b).index ch)) := by
  refine ⟨rfl, rfl, rfl, rfl, ?_⟩
  intro ch
  cases ch <;> rfl

/-- C6: `set(r, g, b)` on a colour in any prior state followed by reading `RED`, `GREEN`,
    `BLUE` returns `r`, `g`, `b`, and the colour after `set` does not depend on the colour
    before it. -/
theorem set_index_readback (c : colour) (r g b : F32) :
    (c.set r g b).index .RED = r
    ∧ (c.set r g b).index .GREEN = g
    ∧ (c.set r g b).index .BLUE = b
    ∧ (∀ c' : colour, c.set r g b = c'.set r g b) :=
  ⟨rfl, rfl, rfl, fun _ => rfl⟩

/-- C7: the four-lane `operator*(float)` returns the colour that independent per-channel
    multiplication gives, whatever the fourth lane is loaded with; `(0.2, 0.4, 0.6) * 2`
    is `(0.4, 0.8, 1.2)`. -/
theorem opMulScalar_per_channel :
    (∀ (c : colour) (s : F32), c.opMulScalar s = some (specScale c s))
    ∧ (∀ (pad : F32) (c : colour) (s : F32), colour.opMulScalarPad pad c s = some (specScale c s))
    ∧ colour.opMulScalar ⟨F32.lit false 2 10, F32.lit false 4 10, F32.lit false 6 10⟩
          (F32.lit false 2 1)
        = some ⟨F32.lit false 4 10, F32.lit false 8 10, F32.lit false 12 10⟩ := by
  refine ⟨fun _ _ => rfl, fun _ _ _ => rfl, by decide⟩

/-- C8: evaluated at `(0.1, 0.2, 0.3) + (0.1, 0.1, 0.1)` with three-element arrays (nothing
    accessible behind them): `operator+` yields no colour, for this and for every pair of
    colours, because its four-lane loads and store run past `rgb[2]`.  The lanes it does
    compute are the component-wise sum: with a word accessible behind each of the three
    objects the returned channels are `a.r + b.r`, `a.g + b.g`, `a.b + b.b`, here
    `(0.2, 0.3, 0.4)`. -/
theorem opAdd_sum_out_of_bounds :
    colour.opAdd ⟨F32.lit false 1 10, F32.lit false 2 10, F32.lit false 3 10⟩ []
        ⟨F32.lit false 1 10, F32.lit false 1 10, F32.lit false 1 10⟩ [] [] = none
    ∧ (∀ a b : colour, (colour.opAdd a [] b [] []).map Prod.fst ≠ some (specAdd a b))
    ∧ (∀ (a b : colour) (wa wb wc : F32) (ta tb tc : List F32),
        (colour.opAdd a (wa :: ta) b (wb :: tb) (wc :: tc)).map Prod.fst = some (specAdd a b))
    ∧ (colour.opAdd ⟨F32.lit false 1 10, F32.lit false 2 10, F32.lit false 3 10⟩ [F32.zero false]
          ⟨F32.lit false 1 10, F32.lit false 1 10, F32.lit false 1 10⟩ [F32.zero false]
          [F32.zero false]).map Prod.fst
        = some ⟨F32.lit false 2 10, F32.lit false 3 10, F32.lit false 4 10⟩ := by
  refine ⟨rfl, ?_, fun _ _ _ _ _ _ _ _ => rfl, by decide⟩
  intro a b h
  have h0 : (colour.opAdd a [] b [] []).map Prod.fst = none := rfl
  rw [h0] at h
  exact Option.noConfusion h

/-- C9: `a * b` is the component-wise product; `(1, 0.5, 0) * (0.5, 0.5, 0.5)` is
    `(0.5, 0.25, 0)`. -/
theorem opMul_component_product :
    (∀ a b : colour, a.opMul b = specMul a b)
    ∧ colour.opMul ⟨F32.lit false 1 1, F32.lit false 1 2, F32.lit false 0 1⟩
          ⟨F32.lit false 1 2, F32.lit false 1 2, F32.lit false 1 2⟩
        = ⟨F32.lit false 1 2, F32.lit false 1 4, F32.lit false 0 1⟩ := by
  refine ⟨fun _ _ => rfl, by decide⟩

/-- C10: evaluated with bounds-checked three-element arrays (nothing accessible behind
    them): `operator+` runs into the out-of-range branch for every pair of colours, because
    each four-lane load reads slot 3 of `rgb`; and where the two loads are allowed, the
    four-lane store writes slot 3 of the result's array: it fails when that slot is not
    accessible and otherwise leaves the sum of the two words read behind the operands
    there.  The sibling `operator*(float)` stays within its four-element buffer. -/
theorem opAdd_touches_slot_three :
    (∀ a b : colour, colour.opAdd a [] b [] [] = none)
    ∧ (∀ (a b : colour) (wa wb : F32) (ta tb : List F32),
        colour.opAdd a (wa :: ta) b (wb :: tb) [] = none)
    ∧ (∀ (a b : colour) (wa wb wc : F32) (ta tb tc : List F32),
        (colour.opAdd a (wa :: ta) b (wb :: tb) (wc :: tc)).map Prod.snd
          = some (F32.fadd wa wb :: tc))
    ∧ (∀ (c : colour) (s : F32), (c.opMulScalar s).isSome = true)
    ∧ colour.opAdd ⟨F32.lit false 1 10, F32.lit false 2 10, F32.lit false 3 10⟩ []
        ⟨F32.lit false 1 10, F32.lit false 1 10, F32.lit false 1 10⟩ [] [] = none :=
  ⟨fun _ _ => rfl, fun _ _ _ _ _ _ => rfl, fun _ _ _ _ _ _ _ _ => rfl, fun _ _ => rfl, rfl⟩

/-- C11: evaluated with the left operand lying directly behind the result object `c` of
    `operator+`: the four-lane store to `c.rgb` writes the word behind `c`, so after the call
    the red channel of the left operand holds the sum of the two words read behind the
    operands; at `(0.1, 0.2, 0.3) + (0.1, 0.1, 0.1)` with `1.0f` behind each operand the left
    operand is `(2.0, 0.2, 0.3)` afterwards. -/
theorem opAdd_overwrites_behind_result :
    (∀ (a b : colour) (wa wb : F32) (ta tb : List F32),
        (colour.opAdd a (wa :: ta) b (wb :: tb) (a.rgb ++ wa :: ta)).map Prod.snd
          = some (F32.fadd wa wb :: a.g :: a.b :: wa :: ta))
    ∧ (colour.opAdd ⟨F32.lit false 1 10, F32.lit false 2 10, F32.lit false 3 10⟩ [F32.one]
          ⟨F32.lit false 1 10, F32.lit false 1 10, F32.lit false 1 10⟩ [F32.one]
          (colour.rgb ⟨F32.lit false 1 10, F32.lit false 2 10, F32.lit false 3 10⟩
            ++ [F32.one])).map (fun p => colour.ofRgb p.2)
        = some (some ⟨F32.lit false 2 1, F32.lit false 2 10, F32.lit false 3 10⟩)
    ∧ F32.lit false 2 1 ≠ F32.lit false 1 10 :=
  ⟨fun _ _ _ _ _ _ => rfl, by decide, by decide⟩

/-- C12: after `a = b` all three channels of `a` equal those of `b` and `b` is unchanged;
    a later `set`, write through the indexed accessor or `clampColour` on `a` leaves `b`
    unchanged. -/
theorem assign_copies_value (s : Vars) :
    (s.assignAB.a.index .RED = s.b.index .RED
      ∧ s.assignAB.a.index .GREEN = s.b.index .GREEN
      ∧ s.assignAB.a.index .BLUE = s.b.index .BLUE)
    ∧ s.assignAB.b = s.b
    ∧ (∀ r g b : F32, (s.assignAB.setA r g b).b = s.b)
    ∧ (∀ (c : Colour) (v : F32), (s.assignAB.indexSetA c v).b = s.b)
    ∧ s.assignAB.clampA.b = s.b :=
  ⟨⟨rfl, rfl, rfl⟩, rfl, fun _ _ _ => rfl, fun _ _ => rfl, rfl⟩

/-- C13: applying `clampColour` twice yields the same colour as applying it once. -/
theorem clampColour_idempotent (c : colour) : c.clampColour.clampColour = c.clampColour := by
  have h : ∀ v : F32, F32.min (F32.min v F32.one) F32.one = F32.min v F32.one := by
    intro v
    have h1 : F32.le F32.one F32.one = true := by decide
    unfold F32.min
    by_cases hv : F32.le v F32.one = true
    · simp [hv]
    · simp [hv, h1]
  simp only [colour.clampColour, h]

/-- C14: a colour constructed with no arguments has all three channels `0`; constructed with
    one or two leading arguments it has the remaining channels `0`. -/
theorem new_defaults_black :
    (colour.new0.index .RED = F32.zero false ∧ colour.new0.index .GREEN = F32.zero false
      ∧ colour.new0.index .BLUE = F32.zero false)
    ∧ (∀ r : F32, (colour.new1 r).index .RED = r ∧ (colour.new1 r).index .GREEN = F32.zero false
        ∧ (colour.new1 r).index .BLUE = F32.zero false)
    ∧ (∀ r g : F32, (colour.new2 r g).index .RED = r ∧ (colour.new2 r g).index .GREEN = g
        ∧ (colour.new2 r g).index .BLUE = F32.zero false)
    ∧ (F32.zero false).toRat = 0 := by
  refine ⟨⟨rfl, rfl, rfl⟩, fun _ => ⟨rfl, rfl, rfl⟩, fun _ _ => ⟨rfl, rfl, rfl⟩, ?_⟩
  have h : (F32.zero false).toInt = 0 := by decide
  rw [F32.toRat, h]
  norm_num

/-- C15: after writing `v` through the indexed accessor at selector `i`, a read at `i` returns
    `v` and a read at another selector returns what it returned before. -/
theorem indexSet_index (c : colour) (i j : Colour) (v : F32) :
    (c.indexSet i v).index j = if j = i then v else c.index j := by
  cases i <;> cases j <;> rfl

/-- C17: for every colour whose channels are all `>= 0`, `clampColour` followed by `toRGB` is
    defined and outputs for each channel the floor of `255 * min(channel, 1)`; each output is
    at most `255`, and it is `255` exactly for a channel that was `>= 1` before clamping. -/
theorem clamp_toRGB_bytes (c : colour) (hr : F32.le (F32.zero false) c.r = true)
    (hg : F32.le (F32.zero false) c.g = true) (hb : F32.le (F32.zero false) c.b = true) :
    c.clampColour.toRGB
        = some (⌊255 * min c.r.toRat 1⌋₊, ⌊255 * min c.g.toRat 1⌋₊, ⌊255 * min c.b.toRat 1⌋₊)
    ∧ (⌊255 * min c.r.toRat 1⌋₊ ≤ 255 ∧ ⌊255 * min c.g.toRat 1⌋₊ ≤ 255
        ∧ ⌊255 * min c.b.toRat 1⌋₊ ≤ 255)
    ∧ ((⌊255 * min c.r.toRat 1⌋₊ = 255 ↔ F32.le F32.one c.r = true)
        ∧ (⌊255 * min c.g.toRat 1⌋₊ = 255 ↔ F32.le F32.one c.g = true)
        ∧ (⌊255 * min c.b.toRat 1⌋₊ = 255 ↔ F32.le F32.one c.b = true)) := by
  obtain ⟨_, r1, r2, r3⟩ := F32.quantize_clamped c.r hr
  obtain ⟨_, g1, g2, g3⟩ := F32.quantize_clamped c.g hg
  obtain ⟨_, b1, b2, b3⟩ := F32.quantize_clamped c.b hb
  refine ⟨?_, ⟨r2, g2, b2⟩, ⟨r3, g3, b3⟩⟩
  unfold colour.toRGB colour.clampColour
  simp only [r1, g1, b1]
  rfl

/-- C17 at the colour `(0.5, 1.5, 0.0)`: the channels are `>= 0` and the bytes are the floors
    of `127.5`, `255` and `0`. -/
theorem clamp_toRGB_bytes_witness :
    (F32.le (F32.zero false) (F32.lit false 1 2) = true
      ∧ F32.le (F32.zero false) (F32.lit false 3 2) = true
      ∧ F32.le (F32.zero false) (F32.lit false 0 1) = true)
    ∧ (colour.clampColour ⟨F32.lit false 1 2, F32.lit false 3 2, F32.lit false 0 1⟩).toRGB
        = some (⌊255 * min (F32.lit false 1 2).toRat 1⌋₊, ⌊255 * min (F32.lit false 3 2).toRat 1⌋₊,
            ⌊255 * min (F32.lit false 0 1).toRat 1⌋₊)
    ∧ (colour.clampColour ⟨F32.lit false 1 2, F32.lit false 3 2, F32.lit false 0 1⟩).toRGB
        = some (127, 255, 0) :=
  ⟨⟨by decide, by decide, by decide⟩,
    (clamp_toRGB_bytes ⟨F32.lit false 1 2, F32.lit false 3 2, F32.lit false 0 1⟩
      (by decide) (by decide) (by decide)).1, by decide⟩

/-- C18, as stated, fails: at the colour `(NaN 0x7FC00001, 1.0, NaN 0x7FA00001)` and the scalar
    `NaN 0xFFC00002`, `c * s` is `(0x7FC00001, 0xFFC00002, 0x7FE00001)` (the NaN of `c` is
    returned where `c` has one), while `c * colour(s, s, s)`, compiled with the factor of
    `col` first, is `0xFFC00002` in all three channels. -/
theorem grey_mul_two_nan_differs :
    colour.opMulScalar ⟨F32.ofBits 0x7FC00001, F32.one, F32.ofBits 0x7FA00001⟩
        (F32.ofBits 0xFFC00002)
      = some ⟨F32.ofBits 0x7FC00001, F32.ofBits 0xFFC00002, F32.ofBits 0x7FE00001⟩
    ∧ colour.opMulAs (fun _ => true) ⟨F32.ofBits 0x7FC00001, F32.one, F32.ofBits 0x7FA00001⟩
        (colour.new (F32.ofBits 0xFFC00002) (F32.ofBits 0xFFC00002) (F32.ofBits 0xFFC00002))
      = ⟨F32.ofBits 0xFFC00002, F32.ofBits 0xFFC00002, F32.ofBits 0xFFC00002⟩
    ∧ colour.opMulScalar ⟨F32.ofBits 0x7FC00001, F32.one, F32.ofBits 0x7FA00001⟩
        (F32.ofBits 0xFFC00002)
      ≠ some (colour.opMulAs (fun _ => true)
          ⟨F32.ofBits 0x7FC00001, F32.one, F32.ofBits 0x7FA00001⟩
          (colour.new (F32.ofBits 0xFFC00002) (F32.ofBits 0xFFC00002) (F32.ofBits 0xFFC00002))) := by
  refine ⟨by decide, by decide, by decide⟩

/-- C18, amended: for every colour `c` and scalar `s`, and whichever factor order the compiler
    chose for `c * colour(s, s, s)`, `c * s` equals `c * colour(s, s, s)` in every channel in
    which the channel of `c` and `s` are not both NaNs; in a channel where both are NaNs both
    products are NaNs. -/
theorem grey_mul_agrees_unless_two_nan (swapped : Colour → Bool) (c : colour) (s : F32)
    (ch : Colour) :
    (¬ ((c.index ch).isNaN = true ∧ s.isNaN = true) →
        (c.opMulScalar s).map (fun x => x.index ch)
          = some ((c.opMulAs swapped (colour.new s s s)).index ch))
    ∧ (((c.index ch).isNaN = true ∧ s.isNaN = true) →
        (c.opMulScalar s).map (fun x => (x.index ch).isNaN) = some true
          ∧ ((c.opMulAs swapped (colour.new s s s)).index ch).isNaN = true) := by
  have key : ∀ v : F32, ¬ (v.isNaN = true ∧ s.isNaN = true) →
      ∀ sw : Bool, F32.fmul v s = if sw then F32.fmul s v else F32.fmul v s := by
    intro v hv sw
    cases sw
    · rfl
    · exact F32.fmul_comm v s hv
  have nan : ∀ v : F32, (v.isNaN = true ∧ s.isNaN = true) →
      ∀ sw : Bool, (if sw then F32.fmul s v else F32.fmul v s).isNaN = true := by
    intro v hv sw
    cases sw
    · exact F32.fmul_isNaN v s (Or.inl hv.1)
    · exact F32.fmul_isNaN s v (Or.inl hv.2)
  constructor
  · intro h
    cases ch
    · exact congrArg some (key c.r h (swapped .RED))
    · exact congrArg some (key c.g h (swapped .GREEN))
    · exact congrArg some (key c.b h (swapped .BLUE))
  · intro h
    cases ch
    · exact ⟨congrArg some (F32.fmul_isNaN c.r s (Or.inl h.1)), nan c.r h (swapped .RED)⟩
    · exact ⟨congrArg some (F32.fmul_isNaN c.g s (Or.inl h.1)), nan c.g h (swapped .GREEN)⟩
    · exact ⟨congrArg some (F32.fmul_isNaN c.b s (Or.inl h.1)), nan c.b h (swapped .BLUE)⟩

/-- C18, amended, at `c = (0.2, NaN 0x7FC00001, 0.6)`, `s = 0.5` and the red channel, with
    the factor of `col` first: the channel and the scalar are not both NaNs and both products
    are `0.1`. -/
theorem grey_mul_agrees_unless_two_nan_witness :
    ¬ ((colour.index ⟨F32.lit false 2 10, F32.ofBits 0x7FC00001, F32.lit false 6 10⟩
          Colour.RED).isNaN = true ∧ (F32.lit false 1 2).isNaN = true)
    ∧ (colour.opMulScalar ⟨F32.lit false 2 10, F32.ofBits 0x7FC00001, F32.lit false 6 10⟩
          (F32.lit false 1 2)).map (fun x => x.index Colour.RED)
        = some ((colour.opMulAs (fun _ => true)
            ⟨F32.lit false 2 10, F32.ofBits 0x7FC00001, F32.lit false 6 10⟩
            (colour.new (F32.lit false 1 2) (F32.lit false 1 2) (F32.lit false 1 2))).index
              Colour.RED)
    ∧ (colour.opMulScalar ⟨F32.lit false 2 10, F32.ofBits 0x7FC00001, F32.lit false 6 10⟩
          (F32.lit false 1 2)).map (fun x => x.index Colour.RED)
        = some (F32.lit false 1 10) :=
  ⟨by decide,
    (grey_mul_agrees_unless_two_nan (fun _ => true)
      ⟨F32.lit false 2 10, F32.ofBits 0x7FC00001, F32.lit false 6 10⟩ (F32.lit false 1 2)
      Colour.RED).1 (by decide),
    by decide⟩

/-- C19: for colours `a` and `b` with every channel in `[0, 1]`, `a * b` has every channel in
    `[0, 1]` and each channel of `a * b` is at most the corresponding channel of `a` and of
    `b`; for a scalar `s` in `[0, 1]`, `a * s` has every channel in `[0, 1]` and each channel
    is at most the corresponding channel of `a` and at most `s`. -/
theorem modulate_closed (a b : colour) (s : F32) (ha : a.allUnit) (hb : b.allUnit)
    (hs : s.inUnit) :
    ((a.opMul b).allUnit
      ∧ (∀ ch : Colour, F32.le ((a.opMul b).index ch) (a.index ch) = true
          ∧ F32.le ((a.opMul b).index ch) (b.index ch) = true))
    ∧ (a.opMulScalar s = some (specScale a s) ∧ (specScale a s).allUnit
      ∧ (∀ ch : Colour, F32.le ((specScale a s).index ch) (a.index ch) = true
          ∧ F32.le ((specScale a s).index ch) s = true)) := by
  obtain ⟨r1, r2, r3⟩ := F32.fmul_unit a.r b.r ha.1 hb.1
  obtain ⟨g1, g2, g3⟩ := F32.fmul_unit a.g b.g ha.2.1 hb.2.1
  obtain ⟨b1, b2, b3⟩ := F32.fmul_unit a.b b.b ha.2.2 hb.2.2
  obtain ⟨sr1, sr2, sr3⟩ := F32.fmul_unit a.r s ha.1 hs
  obtain ⟨sg1, sg2, sg3⟩ := F32.fmul_unit a.g s ha.2.1 hs
  obtain ⟨sb1, sb2, sb3⟩ := F32.fmul_unit a.b s ha.2.2 hs
  refine ⟨⟨⟨r1, g1, b1⟩, ?_⟩, rfl, ⟨sr1, sg1, sb1⟩, ?_⟩
  · intro ch
    cases ch
    · exact ⟨r2, r3⟩
    · exact ⟨g2, g3⟩
    · exact ⟨b2, b3⟩
  · intro ch
    cases ch
    · exact ⟨sr2, sr3⟩
    · exact ⟨sg2, sg3⟩
    · exact ⟨sb2, sb3⟩

/-- C19 at `a = (1, 0.5, 0.1)`, `b = (0.3, 0.5, 0.7)` and `s = 0.3`. -/
theorem modulate_closed_witness :
    (colour.allUnit ⟨F32.lit false 1 1, F32.lit false 1 2, F32.lit false 1 10⟩
      ∧ colour.allUnit ⟨F32.lit false 3 10, F32.lit false 1 2, F32.lit false 7 10⟩
      ∧ (F32.lit false 3 10).inUnit)
    ∧ (colour.opMul ⟨F32.lit false 1 1, F32.lit false 1 2, F32.lit false 1 10⟩
        ⟨F32.lit false 3 10, F32.lit false 1 2, F32.lit false 7 10⟩).allUnit
    ∧ (specScale ⟨F32.lit false 1 1, F32.lit false 1 2, F32.lit false 1 10⟩
        (F32.lit false 3 10)).allUnit :=
  ⟨⟨by decide, by decide, by decide⟩,
    (modulate_closed ⟨F32.lit false 1 1, F32.lit false 1 2, F32.lit false 1 10⟩
      ⟨F32.lit false 3 10, F32.lit false 1 2, F32.lit false 7 10⟩ (F32.lit false 3 10)
      (by decide) (by decide) (by decide)).1.1,
    (modulate_closed ⟨F32.lit false 1 1, F32.lit false 1 2, F32.lit false 1 10⟩
      ⟨F32.lit false 3 10, F32.lit false 1 2, F32.lit false 7 10⟩ (F32.lit false 3 10)
      (by decide) (by decide) (by decide)).2.2.1⟩

end Rasterize
